import Mathlib

/-!
Verification of the natural-language specification of `ast_comments.py`
(t3rn0/ast-comments) against a shallow embedding of its code.

The embedding follows the source file `src/ast_comments.py`:
* `comment_inline` embeds the `inline=` computation of
  `ASTEnrichmentWithComments.extract_comment_nodes` (line 68):
  `t.string != t.line.strip("\n").lstrip(" ")`.
* The comment-placement engine (`append_comment_nodes` and its helpers)
  is embedded over a flat, id-indexed tree representation `FlatTree`;
  the external CPython parser's output for a concrete source is supplied
  as concrete `FlatTree` data, mirroring the `ast.parse` tree shape.
* `fixNode` embeds `pre_compile_fixer` (an `ast.NodeTransformer` whose
  `visit_Comment` returns `None`, deleting Comment nodes from lists).

Machine strings are modelled as Lean `String`; line numbers are `Nat`
(1-based, as in the source, which inserts a dummy line 0).
-/

namespace AstComments

/-! ## String helpers used by the comment extractor

Python `str.strip("\n")` removes the character `'\n'` from both ends,
`str.lstrip(" ")` removes only the space character from the left. -/

def stripNewlines (s : String) : String :=
  ⟨((s.data.dropWhile (· == '\n')).reverse.dropWhile (· == '\n')).reverse⟩

def lstripSpaces (s : String) : String :=
  ⟨s.data.dropWhile (· == ' ')⟩

/-- Embeds line 68 of `ast_comments.py`:
`inline = t.string != t.line.strip("\n").lstrip(" ")`, where `tokStr` is the
comment token text and `tokLine` the physical source line containing it. -/
def comment_inline (tokStr tokLine : String) : Bool :=
  decide (tokStr ≠ lstripSpaces (stripNewlines tokLine))

/-- Python `str.isspace` on the ASCII whitespace characters relevant to
source lines: space, tab, newline, carriage return, vertical tab, form feed. -/
def isPySpace (c : Char) : Bool :=
  c == ' ' || c == '\t' || c == '\n' || c == '\r' || c == '\x0b' || c == '\x0c'

/-! ## The strip-comments transform (`pre_compile_fixer`)

`pre_compile_fixer` runs an `ast.NodeTransformer` whose `visit_Comment`
returns `None`; the transformer rebuilds every list field, dropping entries
whose visit returned `None` and recursing into the others.  We embed the
enriched tree as a mutual inductive: a node is either a `Comment` or a
statement-like node with named container lists. -/

mutual

inductive ENode where
  | comment (value : String) (inl : Bool) : ENode
  | stmt (kind : String) (containers : EConts) : ENode
deriving DecidableEq

inductive EConts where
  | nil : EConts
  | cons (name : String) (block : EList) (rest : EConts) : EConts
deriving DecidableEq

inductive EList where
  | nil : EList
  | cons (hd : ENode) (tl : EList) : EList
deriving DecidableEq

end

mutual

def fixNode : ENode → Option ENode
  | .comment _ _ => none
  | .stmt k cs => some (.stmt k (fixConts cs))

def fixConts : EConts → EConts
  | .nil => .nil
  | .cons name block rest => .cons name (fixList block) (fixConts rest)

def fixList : EList → EList
  | .nil => .nil
  | .cons hd tl =>
    match fixNode hd with
    | none => fixList tl
    | some m => .cons m (fixList tl)

end

mutual

def noCommentsN : ENode → Bool
  | .comment _ _ => false
  | .stmt _ cs => noCommentsC cs

def noCommentsC : EConts → Bool
  | .nil => true
  | .cons _ block rest => noCommentsL block && noCommentsC rest

def noCommentsL : EList → Bool
  | .nil => true
  | .cons hd tl => noCommentsN hd && noCommentsL tl

end

mutual

def kindsN : ENode → List String
  | .comment _ _ => []
  | .stmt k cs => k :: kindsC cs

def kindsC : EConts → List String
  | .nil => []
  | .cons name block rest => name :: (kindsL block ++ kindsC rest)

def kindsL : EList → List String
  | .nil => []
  | .cons hd tl => kindsN hd ++ kindsL tl

end

def isCommentB : ENode → Bool
  | .comment _ _ => true
  | .stmt _ _ => false

def kindsO : Option ENode → List String
  | none => []
  | some m => kindsN m

def noCommentsO : Option ENode → Bool
  | none => true
  | some m => noCommentsN m


/-! ## Generic stable insertion sort

Python `list.sort(key=...)` is a stable sort; `dir(node)` returns attribute
names in ascending order.  `insOrd le x l` inserts `x` after every element
`y` of `l` with `le y x`, so `sortOrd` is a stable sort for a total
preorder `le`, matching Python semantics. -/

def insOrd (le : α → α → Bool) (x : α) : List α → List α
  | [] => [x]
  | y :: ys => if le y x then y :: insOrd le x ys else x :: y :: ys

def sortOrd (le : α → α → Bool) (l : List α) : List α :=
  l.foldl (fun acc x => insOrd le x acc) []

/-! ## The flat tree model

`append_comment_nodes` walks an `ast` tree breadth-first (`ast.walk`) and
mutates it in place.  We embed the tree as an id-indexed table of nodes
(`FlatTree`) and the mutations as explicit state (`EnrichState`): comments
attached as a node's `comment` attribute, comments appended to container
lists, the set of still-unplaced comments, and the class-level `_fields`
registry mutated by `add_comment_field_to_node_class`.

Modelling notes, justified against the source:
* `ast.walk` enqueues children before the caller's mutations run, and
  every mutation made while a node is processed targets that node or its
  direct children, so the breadth-first order over the original tree is
  the order the non-Comment nodes are processed in (Comment nodes reached
  by the walk are skipped by `isinstance(node, Comment): continue`).
* `comment_nodes_set` is a Python set of distinct comment objects; we model
  it as a list in extraction order (ascending line), with removal by value
  (extracted comment records are pairwise distinct — one comment token per
  physical line).
* `dir(node)` yields attribute names in ascending order; attributes other
  than the node's fields are ints, strings, tuples or methods, which the
  loop ignores, so iterating the fields sorted by name is faithful. -/

structure Cmt where
  value : String
  inline : Bool
  lineno : Nat
  end_lineno : Nat
deriving DecidableEq

inductive FAttr where
  | fNode (id : Nat) : FAttr
  | fList (ids : List Nat) : FAttr
  | fOther : FAttr
deriving DecidableEq

structure FlatNode where
  kind : String
  span : Option (Nat × Nat)
  end_col : Nat
  fields : List (String × FAttr)
deriving DecidableEq, Inhabited

structure FlatTree where
  nodes : List FlatNode
  lines : List String
deriving DecidableEq

def getNode (t : FlatTree) (i : Nat) : FlatNode := t.nodes.getD i default

def spanOf (t : FlatTree) (i : Nat) : Nat × Nat := (getNode t i).span.getD (0, 0)

def CONTAINER_ATTRS : List String := ["body", "handlers", "orelse", "finalbody", "elts", "keys"]

def KEYWORDS : List String := ["if", "else", "elif", "try", "except", "finally", "while", "for"]

/-- Children in `_fields` order, as `ast.iter_child_nodes` yields them. -/
def childIds (t : FlatTree) (i : Nat) : List Nat :=
  (getNode t i).fields.foldr (fun p acc =>
    match p.2 with
    | .fNode j => j :: acc
    | .fList js => js ++ acc
    | .fOther => acc) []

def walkFuel (t : FlatTree) : Nat → List Nat → List Nat
  | 0, _ => []
  | _ + 1, [] => []
  | fuel + 1, i :: rest => i :: walkFuel t fuel (rest ++ childIds t i)

/-- Breadth-first walk order of `ast.walk`.  In a well-formed tree every
node id occurs once in the table, so the table size bounds the number of
nodes the walk visits. -/
def walkIds (t : FlatTree) : List Nat := walkFuel t t.nodes.length [0]

structure Blk where
  owner : Nat
  attr : String
  stmts : List Nat
  lineno : Nat
  end_lineno : Nat
deriving DecidableEq

/-- Embeds `get_block_range`: `(min of linenos, max of end_linenos)`. -/
def blockRange (t : FlatTree) (ids : List Nat) : Nat × Nat :=
  match ids with
  | [] => (0, 0)
  | j :: js => js.foldl (fun acc k => (min acc.1 (spanOf t k).1, max acc.2 (spanOf t k).2))
      ((spanOf t j).1, (spanOf t j).2)

/-- Lexicographic order on code points, the order `sorted`/`dir` uses. -/
def charListLe : List Char → List Char → Bool
  | [], _ => true
  | _ :: _, [] => false
  | a :: as, b :: bs =>
    if a.toNat < b.toNat then true
    else if a.toNat = b.toNat then charListLe as bs
    else false

def sortedFields (n : FlatNode) : List (String × FAttr) :=
  sortOrd (fun p q => charListLe p.1.data q.1.data) n.fields

/-- Container blocks of a node, collected over `dir(node)` and then sorted
by `lineno` as in `block_ranges.sort(key=lambda b: b.lineno)`. -/
def collectBlocks (t : FlatTree) (i : Nat) : List Blk :=
  sortOrd (fun a b => decide (a.lineno ≤ b.lineno))
    ((sortedFields (getNode t i)).foldr (fun p acc =>
      if p.1 ∈ CONTAINER_ATTRS then
        match p.2 with
        | .fList ids =>
          if ids.isEmpty then acc
          else
            let r := blockRange t ids
            { owner := i, attr := p.1, stmts := ids, lineno := r.1, end_lineno := r.2 } :: acc
        | _ => acc
      else acc) [])

def commentsInRange (pending : List Cmt) (low high : Nat) : List Cmt :=
  pending.filter (fun c => decide (low ≤ c.lineno ∧ c.lineno ≤ high))

/-- Embeds `append_child_with_inner_comment` for one child node. -/
def addChild (t : FlatTree) (e : Nat) (pending : List Cmt)
    (acc : List Nat × List Cmt) (j : Nat) : List Nat × List Cmt :=
  match (getNode t j).span with
  | none => acc
  | some (jl, je) =>
    let last := min je (e - 1)
    if jl ≤ last then (acc.1 ++ [j], acc.2 ++ commentsInRange pending jl last) else acc

/-- The non-container children of a node together with the comments lying
inside them (`children` and `comments_inside_children` of the source). -/
def collectChildren (t : FlatTree) (i : Nat) (pending : List Cmt) : List Nat × List Cmt :=
  let n := getNode t i
  match n.span with
  | none => ([], [])
  | some (_, e) =>
    (sortedFields n).foldl (fun acc p =>
      if p.1 ∈ CONTAINER_ATTRS then acc
      else if p.1 = "comment" then acc
      else
        match p.2 with
        | .fNode j => addChild t e pending acc j
        | .fList js => js.foldl (addChild t e pending) acc
        | .fOther => acc) ([], [])

/-- Embeds `get_inf_node_for_comment`. -/
def getInfNode (t : FlatTree) (children : List Nat) (c : Cmt) : Option Nat :=
  children.foldl (fun acc j =>
    let s := spanOf t j
    if s.1 ≤ c.lineno ∧ c.lineno ≤ s.2 then
      match acc with
      | none => some j
      | some a => if (getNode t a).end_col < (getNode t j).end_col then some j else acc
    else acc) none

inductive Around where
  | insideChild : Around
  | found (b : Blk) : Around
  | noneFound : Around
deriving DecidableEq

/-- Embeds `get_block_around_comment` (`False` becomes `insideChild`). -/
def getBlockAround (t : FlatTree) : List Blk → Cmt → Around
  | [], _ => .noneFound
  | b :: bs, c =>
    if b.lineno ≤ c.lineno ∧ c.end_lineno ≤ b.end_lineno then
      if b.stmts.any (fun j =>
          decide ((spanOf t j).1 ≤ c.lineno ∧ c.end_lineno ≤ (spanOf t j).2)) then
        .insideChild
      else .found b
    else getBlockAround t bs c

/-- Embeds `get_inf_block_for_comment`. -/
def getInfBlock (blocks : List Blk) (c : Cmt) : Option Blk :=
  blocks.foldl (fun acc b =>
    if b.end_lineno < c.lineno then
      match acc with
      | none => some b
      | some a => if a.end_lineno < b.end_lineno then some b else acc
    else acc) none

/-- Embeds `get_sup_block_for_comment`. -/
def getSupBlock (blocks : List Blk) (c : Cmt) : Option Blk :=
  blocks.foldl (fun acc b =>
    if b.lineno > c.end_lineno then
      match acc with
      | none => some b
      | some a => if a.lineno > b.lineno then some b else acc
    else acc) none

/-- Embeds `is_comment_line`: the regex `^ *#.*`. -/
def isCommentLine (line : String) : Bool :=
  (line.data.dropWhile (· == ' ')).head? == some '#'

def hasSub (needle : List Char) : List Char → Bool
  | [] => needle.isPrefixOf []
  | c :: t => if needle.isPrefixOf (c :: t) then true else hasSub needle t

/-- Python `keyword in line` substring tests over the `_KEYWORDS` list. -/
def keywordInLine (line : String) : Bool :=
  KEYWORDS.any (fun kw => hasSub kw.data line.data)

/-- Embeds the keyword scan
`for line_number in range(sup_block.lineno, inf_block.end_lineno, -1)`:
the first non-comment line containing a keyword decides the block —
`true` means the inf block (`node_comment.lineno < line_number`). -/
def kwChoose (lines : List String) (cLine : Nat) (ln : Nat) : Nat → Option Bool
  | 0 => none
  | steps + 1 =>
    let line := lines.getD ln ""
    if ¬ isCommentLine line ∧ keywordInLine line then some (decide (cLine < ln))
    else kwChoose lines cLine (ln - 1) steps

/-! ## Container entries and `add_comment_to_block` -/

inductive Entry where
  | stmt (id : Nat) (end_lineno : Nat) : Entry
  | cmt (c : Cmt) : Entry
deriving DecidableEq

def entryEnd : Entry → Nat
  | .stmt _ e => e
  | .cmt c => c.end_lineno

def entryIsCmt : Entry → Bool
  | .stmt _ _ => false
  | .cmt _ => true

/-- The sort key of `add_comment_to_block`:
`key=lambda x: (x.end_lineno, isinstance(x, Comment))`. -/
def entryKeyLe (a b : Entry) : Bool :=
  decide (entryEnd a < entryEnd b) ||
    (decide (entryEnd a = entryEnd b) && (!entryIsCmt a || entryIsCmt b))

/-- Embeds `add_comment_to_block`: append, then stable sort by the key. -/
def addCommentToBlock (l : List Entry) (c : Cmt) : List Entry :=
  sortOrd entryKeyLe (l ++ [Entry.cmt c])

/-! ## The placement engine state -/

structure EnrichState where
  pending : List Cmt
  attrComments : List (Nat × Cmt)
  blockAdds : List ((Nat × String) × Cmt)
  classFields : List String
deriving DecidableEq

def removeCmt (pending : List Cmt) (c : Cmt) : List Cmt :=
  pending.filter (fun x => decide (x ≠ c))

/-- The class-level `_fields` registry: `add_comment_field_to_node_class`
adds `"comment"` to the class `_fields` unless already present; the
registry records which node kinds have been mutated. -/
def addKind (l : List String) (k : String) : List String :=
  if k ∈ l then l else l ++ [k]

/-- Embeds `node.comment = node_comment` followed by
`add_comment_field_to_node_class(node)` and the removal from the set. -/
def attachAttr (t : FlatTree) (st : EnrichState) (j : Nat) (c : Cmt) : EnrichState :=
  { st with
    attrComments := st.attrComments.filter (fun p => decide (p.1 ≠ j)) ++ [(j, c)],
    classFields := addKind st.classFields (getNode t j).kind,
    pending := removeCmt st.pending c }

/-- Records `add_comment_to_block(block.block, node_comment)` plus the
removal from the set; the list content is assembled by `finalContainer`.
`stored` is the comment value at insertion time (the source sets
`node_comment.inline = False` before one of the insertions), `removed` the
comment the set loses — the same object in the source, so removal uses the
original record. -/
def addToBlock (st : EnrichState) (b : Blk) (stored removed : Cmt) : EnrichState :=
  { st with
    blockAdds := st.blockAdds ++ [((b.owner, b.attr), stored)],
    pending := removeCmt st.pending removed }

/-- What `append_comment_nodes` does with one comment at one node: nothing
(the comment stays pending), attach as the `comment` attribute of node
`j`, or add to a block with the recorded value. -/
inductive PlaceAct where
  | keep : PlaceAct
  | attach (j : Nat) : PlaceAct
  | toBlock (b : Blk) (stored : Cmt) : PlaceAct
deriving DecidableEq

/-- The branch structure of `for node_comment in node_comments` (lines
120-170 of the source), for the node `i` with its collected `blocks` and
`children`; the branches only read the tree, so the decision is a pure
function of them. -/
def decideAction (t : FlatTree) (i : Nat) (blocks : List Blk) (children : List Nat)
    (c : Cmt) : PlaceAct :=
  if c.inline then
    match (if children.isEmpty then none else getInfNode t children c) with
    | some j => .attach j
    | none =>
      if blocks.isEmpty then .attach i
      else
        match getSupBlock blocks c with
        | some b => .toBlock b { c with inline := false }
        | none => .keep
  else
    if blocks.isEmpty then .keep
    else
      match getBlockAround t blocks c with
      | .insideChild => .keep
      | .found b => .toBlock b c
      | .noneFound =>
        match getInfBlock blocks c, getSupBlock blocks c with
        | some ib, some sb =>
          (match kwChoose t.lines c.lineno sb.lineno (sb.lineno - ib.end_lineno) with
           | some true => .toBlock ib c
           | some false => .toBlock sb c
           | none => .keep)
        | some ib, none => .toBlock ib c
        | none, some sb => .toBlock sb c
        | none, none => .keep

def applyAction (t : FlatTree) (st : EnrichState) (c : Cmt) : PlaceAct → EnrichState
  | .keep => st
  | .attach j => attachAttr t st j c
  | .toBlock b stored => addToBlock st b stored c

/-- One iteration of `for node_comment in node_comments`. -/
def processOneComment (t : FlatTree) (i : Nat) (blocks : List Blk) (children : List Nat)
    (st : EnrichState) (c : Cmt) : EnrichState :=
  applyAction t st c (decideAction t i blocks children c)

/-- Embeds one iteration of `for node in ast.walk(tree)`. -/
def processNode (t : FlatTree) (st : EnrichState) (i : Nat) : EnrichState :=
  let n := getNode t i
  match n.span with
  | none => st
  | some (l, e) =>
    let inside := commentsInRange st.pending l e
    let blocks := collectBlocks t i
    let cc := if l < e then collectChildren t i st.pending else ([], [])
    let nodeComments := inside.filter (fun c => decide (c ∉ cc.2))
    nodeComments.foldl (processOneComment t i blocks cc.1) st

def initState (reg : List String) (cs : List Cmt) : EnrichState :=
  { pending := cs, attrComments := [], blockAdds := [], classFields := reg }

def runWalk (reg : List String) (t : FlatTree) (cs : List Cmt) : EnrichState :=
  (walkIds t).foldl (processNode t) (initState reg cs)

/-- Embeds `append_comment_nodes`: the walk followed by the fallback loop
adding every still-pending comment to the root `body` container.  `reg` is
the incoming class-level `_fields` registry (process-global state). -/
def runEnrich (reg : List String) (t : FlatTree) (cs : List Cmt) : EnrichState :=
  let st := runWalk reg t cs
  { st with
    blockAdds := st.blockAdds ++ st.pending.map (fun c => ((0, "body"), c)),
    pending := [] }

structure Enriched where
  tree : FlatTree
  st : EnrichState
deriving DecidableEq

inductive ParseArg where
  | ofSource (t : FlatTree) (cs : List Cmt) : ParseArg
  | ofTree (e : Enriched) : ParseArg
deriving DecidableEq

/-- Embeds `parse` (lines 34-40): on text input, the external parser and
tokenizer outputs are the supplied `FlatTree` and comment records and the
enrichment runs; a tree input is returned by `ast.parse` unchanged (CPython
`compile` with `PyCF_ONLY_AST` returns an AST argument as is, per the spec:
"an already-enriched tree — returned as-is") and the `isinstance` check
skips the enrichment.  The second component is the class-fields registry
after the call. -/
def parseSt (reg : List String) : ParseArg → Enriched × List String
  | .ofSource t cs => let st := runEnrich reg t cs; (⟨t, st⟩, st.classFields)
  | .ofTree e => (e, reg)

/-- A `parse` call in a fresh process (empty class-fields registry). -/
def parse (a : ParseArg) : Enriched := (parseSt [] a).1

def lookupField (n : FlatNode) (name : String) : Option FAttr :=
  (n.fields.find? (fun p => p.1 == name)).map (·.2)

def origEntries (t : FlatTree) (ref : Nat × String) : List Entry :=
  match lookupField (getNode t ref.1) ref.2 with
  | some (.fList ids) => ids.map (fun j => Entry.stmt j (spanOf t j).2)
  | _ => []

def containerAdds (st : EnrichState) (ref : Nat × String) : List Cmt :=
  (st.blockAdds.filter (fun p => decide (p.1 = ref))).map (·.2)

/-- A container list of the enriched tree: the original statements with
each recorded `add_comment_to_block` applied in order. -/
def finalContainer (t : FlatTree) (st : EnrichState) (ref : Nat × String) : List Entry :=
  (containerAdds st ref).foldl addCommentToBlock (origEntries t ref)

def attrCommentOf (e : Enriched) (i : Nat) : Option Cmt :=
  (e.st.attrComments.find? (fun p => p.1 == i)).map (·.2)

/-- Text of every comment present anywhere in an enriched tree. -/
def commentValues (e : Enriched) : List String :=
  e.st.attrComments.map (·.2.value) ++ e.st.blockAdds.map (·.2.value)
    ++ e.st.pending.map (·.value)

/-- The comment's line is contained in no node span of the tree — hence in
no recognized container interval (every container interval lies inside its
owning node's span). -/
def spanFreeB (t : FlatTree) (c : Cmt) : Bool :=
  t.nodes.all (fun n =>
    match n.span with
    | none => true
    | some le => !(decide (le.1 ≤ c.lineno ∧ c.lineno ≤ le.2)))

/-- Every kind in the class-fields registry beyond the incoming `reg` is
accounted for by a node of that kind carrying an attribute comment. -/
def classFieldsInv (t : FlatTree) (reg : List String) (st : EnrichState) : Prop :=
  ∀ k ∈ st.classFields, k ∈ reg ∨ ∃ p ∈ st.attrComments, (getNode t p.1).kind = k

/-- A comment record as `extract_comment_nodes` builds it, with the
`inline` flag computed by `comment_inline`. -/
def mkComment (tokStr tokLine : String) (lineno endLineno : Nat) : Cmt :=
  { value := tokStr, inline := comment_inline tokStr tokLine,
    lineno := lineno, end_lineno := endLineno }

/-- Modelled from the spec: the serializer `_Unparser` that `unparse`
(line 241 of the source) calls is absent from the source file — the
star-import from `ast` does not bind underscore names — so its comment
behaviour is
taken from spec section 4.4: a Comment node marked inline is emitted on
the same output line as the preceding content prefixed by two spaces, a
standalone Comment on its own line at the current indentation; statement
nodes are emitted by the external pretty-printer, abstracted as `printer`.
Section 4.4 prescribes output only for Comment nodes in container lists; a
comment stored as a node attribute has no prescribed emission and is not
emitted.  Rendered here for the module-level statement sequence, which
suffices for the inputs considered. -/
def unparse_modelled (printer : Nat → String) (e : Enriched) : List String :=
  (finalContainer e.tree e.st (0, "body")).foldl (fun acc ent =>
    match ent with
    | .stmt j _ => acc ++ [printer j]
    | .cmt c =>
      if c.inline then acc.dropLast ++ [acc.getLastD "" ++ "  " ++ c.value]
      else acc ++ [c.value]) []

/-! ## Concrete inputs

The `FlatTree` values below are the CPython `ast.parse` trees of the
concrete sources, written out node by node (id-indexed; spans are the
1-based `lineno`/`end_lineno` pairs CPython reports; `Module` and the
context/operator/arguments helper nodes carry no span). -/

/-- The tree of `hello = 'hello' # comment to hello` (one line):
`Module(body=[Assign(targets=[Name(ctx=Store)], value=Constant)])`. -/
def t5 : FlatTree :=
  { nodes :=
      [ { kind := "Module", span := none, end_col := 0,
          fields := [("body", .fList [1]), ("type_ignores", .fList [])] },
        { kind := "Assign", span := some (1, 1), end_col := 15,
          fields := [("targets", .fList [2]), ("value", .fNode 3), ("type_comment", .fOther)] },
        { kind := "Name", span := some (1, 1), end_col := 5,
          fields := [("id", .fOther), ("ctx", .fNode 4)] },
        { kind := "Constant", span := some (1, 1), end_col := 15,
          fields := [("value", .fOther), ("kind", .fOther)] },
        { kind := "Store", span := none, end_col := 0, fields := [] } ],
    lines := ["", "hello = \x27hello\x27 # comment to hello"] }

/-- The comment token of `hello = 'hello' # comment to hello`. -/
def c5 : Cmt := mkComment "# comment to hello" "hello = \x27hello\x27 # comment to hello" 1 1

/-- The tree of the source of the test
`test_comment_at_end_of_inner_block_with_wrong_indentation_gets_moved_to_next_block`:
```
(line 1 blank)
if 1 == 1:
    hello = 'hello'
# Comment at end of block
else:
    hello = 'hello'
```
`Module(body=[If(test=Compare, body=[Assign], orelse=[Assign])])`. -/
def t4 : FlatTree :=
  { nodes :=
      [ { kind := "Module", span := none, end_col := 0,
          fields := [("body", .fList [1]), ("type_ignores", .fList [])] },
        { kind := "If", span := some (2, 6), end_col := 19,
          fields := [("test", .fNode 2), ("body", .fList [3]), ("orelse", .fList [7])] },
        { kind := "Compare", span := some (2, 2), end_col := 10,
          fields := [("left", .fNode 4), ("ops", .fList [5]), ("comparators", .fList [6])] },
        { kind := "Assign", span := some (3, 3), end_col := 19,
          fields := [("targets", .fList [8]), ("value", .fNode 9), ("type_comment", .fOther)] },
        { kind := "Constant", span := some (2, 2), end_col := 4,
          fields := [("value", .fOther), ("kind", .fOther)] },
        { kind := "Eq", span := none, end_col := 0, fields := [] },
        { kind := "Constant", span := some (2, 2), end_col := 10,
          fields := [("value", .fOther), ("kind", .fOther)] },
        { kind := "Assign", span := some (6, 6), end_col := 19,
          fields := [("targets", .fList [10]), ("value", .fNode 11), ("type_comment", .fOther)] },
        { kind := "Name", span := some (3, 3), end_col := 9,
          fields := [("id", .fOther), ("ctx", .fNode 12)] },
        { kind := "Constant", span := some (3, 3), end_col := 19,
          fields := [("value", .fOther), ("kind", .fOther)] },
        { kind := "Name", span := some (6, 6), end_col := 9,
          fields := [("id", .fOther), ("ctx", .fNode 13)] },
        { kind := "Constant", span := some (6, 6), end_col := 19,
          fields := [("value", .fOther), ("kind", .fOther)] },
        { kind := "Store", span := none, end_col := 0, fields := [] },
        { kind := "Store", span := none, end_col := 0, fields := [] } ],
    lines := ["", "", "if 1 == 1:", "    hello = \x27hello\x27",
      "# Comment at end of block", "else:", "    hello = \x27hello\x27"] }

/-- The comment token on line 4 of the `t4` source. -/
def c4 : Cmt := mkComment "# Comment at end of block" "# Comment at end of block\n" 4 4

/-- The tree of the source of the test
`test_comment_at_end_of_inner_block_getting_correctly_parsed`:
```
(line 1 blank)
def test():
    hello = 'hello'
    # Comment at end of block
```
`Module(body=[FunctionDef(args=arguments, body=[Assign])])`. -/
def t3 : FlatTree :=
  { nodes :=
      [ { kind := "Module", span := none, end_col := 0,
          fields := [("body", .fList [1]), ("type_ignores", .fList [])] },
        { kind := "FunctionDef", span := some (2, 3), end_col := 19,
          fields := [("name", .fOther), ("args", .fNode 2), ("body", .fList [3]),
            ("decorator_list", .fList []), ("returns", .fOther), ("type_comment", .fOther)] },
        { kind := "arguments", span := none, end_col := 0, fields := [] },
        { kind := "Assign", span := some (3, 3), end_col := 19,
          fields := [("targets", .fList [4]), ("value", .fNode 5), ("type_comment", .fOther)] },
        { kind := "Name", span := some (3, 3), end_col := 9,
          fields := [("id", .fOther), ("ctx", .fNode 6)] },
        { kind := "Constant", span := some (3, 3), end_col := 19,
          fields := [("value", .fOther), ("kind", .fOther)] },
        { kind := "Store", span := none, end_col := 0, fields := [] } ],
    lines := ["", "", "def test():", "    hello = \x27hello\x27",
      "    # Comment at end of block"] }

/-- The comment token on line 4 of the `t3` source. -/
def c3 : Cmt := mkComment "# Comment at end of block" "    # Comment at end of block\n" 4 4

/-- A comment on line 3 of the `t5` source extended by a blank line — a
line inside no node span of `t5`. -/
def cFree : Cmt := mkComment "# x" "# x\n" 3 3

/-- The external pretty-printer for the statements of `t5`. -/
def printer5 : Nat → String := fun j => if j == 1 then "hello = \x27hello\x27" else ""

mutual

theorem fixNode_spec (n : ENode) :
    kindsO (fixNode n) = kindsN n ∧ noCommentsO (fixNode n) = true := by
  cases n with
  | comment v i => simp [fixNode, kindsO, noCommentsO, kindsN]
  | stmt k cs =>
    have h := fixConts_spec cs
    simp [fixNode, kindsO, noCommentsO, kindsN, noCommentsN, h.1, h.2]

theorem fixConts_spec (cs : EConts) :
    kindsC (fixConts cs) = kindsC cs ∧ noCommentsC (fixConts cs) = true := by
  cases cs with
  | nil => simp [fixConts, kindsC, noCommentsC]
  | cons name block rest =>
    have hb := fixList_spec block
    have hr := fixConts_spec rest
    simp [fixConts, kindsC, noCommentsC, hb.1, hb.2, hr.1, hr.2]

theorem fixList_spec (l : EList) :
    kindsL (fixList l) = kindsL l ∧ noCommentsL (fixList l) = true := by
  cases l with
  | nil => simp [fixList, kindsL, noCommentsL]
  | cons hd tl =>
    have ht := fixList_spec tl
    cases hd with
    | comment v i => simp [fixList, fixNode, kindsL, kindsN, ht.1, ht.2]
    | stmt k cs =>
      have hc := fixConts_spec cs
      simp [fixList, fixNode, kindsL, kindsN, noCommentsL, noCommentsN,
        ht.1, ht.2, hc.1, hc.2]

end

/-! ## Properties of the stable insertion sort -/

theorem mem_insOrd (le : α → α → Bool) (x : α) (l : List α) (y : α) :
    y ∈ insOrd le x l ↔ y = x ∨ y ∈ l := by
  induction l with
  | nil => simp [insOrd]
  | cons z zs ih =>
    simp only [insOrd]
    split
    · simp only [List.mem_cons, ih]
      tauto
    · simp only [List.mem_cons]
      try tauto

theorem mem_sortOrd (le : α → α → Bool) (l : List α) (y : α) :
    y ∈ sortOrd le l ↔ y ∈ l := by
  suffices h : ∀ acc : List α,
      y ∈ l.foldl (fun acc x => insOrd le x acc) acc ↔ y ∈ acc ∨ y ∈ l by
    simpa [sortOrd] using h []
  induction l with
  | nil => simp
  | cons z zs ih =>
    intro acc
    simp only [List.foldl_cons, ih, mem_insOrd, List.mem_cons]
    tauto

theorem pairwise_insOrd (le : α → α → Bool)
    (htot : ∀ a b, le a b = true ∨ le b a = true)
    (htrans : ∀ a b c, le a b = true → le b c = true → le a c = true)
    (x : α) (l : List α) (h : l.Pairwise (fun a b => le a b = true)) :
    (insOrd le x l).Pairwise (fun a b => le a b = true) := by
  induction l with
  | nil => simp [insOrd]
  | cons y ys ih =>
    rw [List.pairwise_cons] at h
    obtain ⟨hy, hys⟩ := h
    simp only [insOrd]
    split
    · rename_i hle
      rw [List.pairwise_cons]
      refine ⟨?_, ih hys⟩
      intro z hz
      rcases (mem_insOrd le x ys z).1 hz with rfl | hzys
      · exact hle
      · exact hy z hzys
    · rename_i hle
      rw [List.pairwise_cons]
      have hxy : le x y = true := (htot x y).resolve_right hle
      refine ⟨?_, List.pairwise_cons.2 ⟨hy, hys⟩⟩
      intro z hz
      rcases List.mem_cons.1 hz with rfl | hzys
      · exact hxy
      · exact htrans x y z hxy (hy z hzys)

theorem pairwise_sortOrd (le : α → α → Bool)
    (htot : ∀ a b, le a b = true ∨ le b a = true)
    (htrans : ∀ a b c, le a b = true → le b c = true → le a c = true)
    (l : List α) :
    (sortOrd le l).Pairwise (fun a b => le a b = true) := by
  suffices h : ∀ acc : List α, acc.Pairwise (fun a b => le a b = true) →
      (l.foldl (fun acc x => insOrd le x acc) acc).Pairwise (fun a b => le a b = true) by
    exact h [] (by simp)
  induction l with
  | nil => intro acc hacc; simpa using hacc
  | cons z zs ih =>
    intro acc hacc
    exact ih _ (pairwise_insOrd le htot htrans z acc hacc)

theorem entryKeyLe_total (a b : Entry) : entryKeyLe a b = true ∨ entryKeyLe b a = true := by
  rcases Nat.lt_trichotomy (entryEnd a) (entryEnd b) with h | h | h
  · left; simp [entryKeyLe, h]
  · cases hc : entryIsCmt b
    · right; simp [entryKeyLe, h.symm, hc]
    · left; simp [entryKeyLe, h, hc]
  · right; simp [entryKeyLe, h]

theorem entryKeyLe_trans (a b c : Entry) (h1 : entryKeyLe a b = true)
    (h2 : entryKeyLe b c = true) : entryKeyLe a c = true := by
  simp only [entryKeyLe, Bool.or_eq_true, Bool.and_eq_true, decide_eq_true_eq] at h1 h2 ⊢
  rcases h1 with h1 | ⟨h1e, h1b⟩ <;> rcases h2 with h2 | ⟨h2e, h2b⟩
  · left; omega
  · left; omega
  · left; omega
  · refine Or.inr ⟨by omega, ?_⟩
    revert h1b h2b
    cases entryIsCmt a <;> cases entryIsCmt b <;> cases entryIsCmt c <;> simp

theorem pairwise_addCommentToBlock (l : List Entry) (c : Cmt) :
    (addCommentToBlock l c).Pairwise (fun a b => entryKeyLe a b = true) :=
  pairwise_sortOrd entryKeyLe entryKeyLe_total entryKeyLe_trans _

theorem pairwise_foldl_add (adds : List Cmt) (init : List Entry)
    (h : init.Pairwise (fun a b => entryKeyLe a b = true)) :
    (adds.foldl addCommentToBlock init).Pairwise (fun a b => entryKeyLe a b = true) := by
  induction adds generalizing init with
  | nil => simpa using h
  | cons a as ih => exact ih _ (pairwise_addCommentToBlock init a)

/-! ## Claim theorems -/

/-- C10: `pre_compile_fixer` deletes every Comment from every container
list (`noCommentsO`), keeps every non-Comment node — the statement kinds
and container names in preorder are unchanged (`kindsO`) — and erases a
tree that is itself a bare Comment to `None` (and nothing else). -/
theorem c10_fixer_strips_comments (n : ENode) :
    noCommentsO (fixNode n) = true ∧ kindsO (fixNode n) = kindsN n ∧
    (fixNode n).isNone = isCommentB n := by
  refine ⟨(fixNode_spec n).2, (fixNode_spec n).1, ?_⟩
  cases n <;> simp [fixNode, isCommentB]

/-- C6: within a container list of the enriched tree — the base parser's
position-sorted statement list (the hypothesis) with every recorded
`add_comment_to_block` applied — the entries are pairwise non-decreasing
in the key `(end_lineno, isinstance(x, Comment))`; consequently no Comment
can precede a statement sharing its end line. -/
theorem c6_container_order (t : FlatTree) (cs : List Cmt) (ref : Nat × String)
    (h : (origEntries t ref).Pairwise (fun a b => entryKeyLe a b = true)) :
    (finalContainer t (parse (.ofSource t cs)).st ref).Pairwise
      (fun a b => entryKeyLe a b = true) ∧
    ∀ pre mid post a b,
      finalContainer t (parse (.ofSource t cs)).st ref = pre ++ a :: (mid ++ b :: post) →
      entryIsCmt a = true → entryIsCmt b = false → entryEnd a = entryEnd b → False := by
  have hp : (finalContainer t (parse (.ofSource t cs)).st ref).Pairwise
      (fun a b => entryKeyLe a b = true) := pairwise_foldl_add _ _ h
  refine ⟨hp, ?_⟩
  intro pre mid post a b heq hca hcb he
  rw [heq] at hp
  have h2 := (List.pairwise_append.1 hp).2.1
  rw [List.pairwise_cons] at h2
  have hab := h2.1 b (by simp)
  rw [entryKeyLe] at hab
  simp [hca, hcb, he] at hab

/-- Witness for C6: the if-body container of the `t4` run, whose base list
is position-sorted. -/
theorem c6_container_order_witness :
    (origEntries t4 (1, "body")).Pairwise (fun a b => entryKeyLe a b = true) ∧
    (finalContainer t4 (parse (.ofSource t4 [c4])).st (1, "body")).Pairwise
      (fun a b => entryKeyLe a b = true) :=
  ⟨by decide, (c6_container_order t4 [c4] (1, "body") (by decide)).1⟩

/-- C5: the claim says parsing `hello = 'hello' # comment to hello` yields a
root body of two nodes, the assignment then a Comment sibling with
`inline=True`.  The code instead leaves the root body with the assignment
alone and stores the comment as the `comment` attribute of the Assign node
(the inline branch of `append_comment_nodes` with no children and no block
ranges executes `node.comment = node_comment`), contradicting the repo's
own test `test_inline_comment_after_statement`. -/
theorem c5_inline_comment_becomes_attribute :
    finalContainer t5 (parse (.ofSource t5 [c5])).st (0, "body") = [Entry.stmt 1 1] ∧
    attrCommentOf (parse (.ofSource t5 [c5])) 1 = some c5 ∧
    c5.inline = true := by
  refine ⟨by decide, by decide, by decide⟩

/-- C4: the claim says a standalone comment between an if-body's last
statement and the `else:` line lands in the if's `orelse` container.  On
the source of the repo's test
`test_comment_at_end_of_inner_block_with_wrong_indentation_gets_moved_to_next_block`
the keyword scan finds `else` on line 5 and, since the comment line 4 is
above it, picks the inf block — the if's `body` — so `orelse` stays
comment-free, contradicting that test. -/
theorem c4_comment_goes_to_body_not_orelse :
    finalContainer t4 (parse (.ofSource t4 [c4])).st (1, "orelse") = [Entry.stmt 7 6] ∧
    finalContainer t4 (parse (.ofSource t4 [c4])).st (1, "body") =
      [Entry.stmt 3 3, Entry.cmt c4] := by
  refine ⟨by decide, by decide⟩

/-- C3: the claim says a standalone comment indented at a block's level
after the block's last statement is captured inside that block.
`get_block_range` computes only the min/max statement lines and performs no
indentation-based extension, so on the source of the repo's test
`test_comment_at_end_of_inner_block_getting_correctly_parsed` the comment
on line 4 lies in no node span, falls through to the root fallback, and
ends up in the module body after the function — not in the function's
body, contradicting that test. -/
theorem c3_trailing_comment_left_at_root :
    finalContainer t3 (parse (.ofSource t3 [c3])).st (0, "body") =
      [Entry.stmt 1 3, Entry.cmt c3] ∧
    finalContainer t3 (parse (.ofSource t3 [c3])).st (1, "body") = [Entry.stmt 3 3] := by
  refine ⟨by decide, by decide⟩

/-- C1: the claim says `unparse (parse S)` is defined and re-parsing it
reproduces the comments.  For `S = "hello = 'hello' # comment to hello"`
the enriched tree stores its only comment as an Assign attribute; the
(spec-modelled) serializer emits only Comment nodes of container lists, so
the unparsed text is exactly `hello = 'hello'`, whose re-parse (no comment
tokens) carries no comment at all — comment content is not stable under
the round-trip.  (In the source itself the round-trip is not even defined:
`unparse` calls `_Unparser`, a name `from ast import *` never binds.) -/
theorem c1_roundtrip_failure :
    unparse_modelled printer5 (parse (.ofSource t5 [c5])) = ["hello = \x27hello\x27"] ∧
    commentValues (parse (.ofSource t5 [c5])) = ["# comment to hello"] ∧
    commentValues (parse (.ofSource t5 [])) = [] := by
  refine ⟨by decide, by decide, by decide⟩

theorem dropWhile_eq_self_of_not (p : α → Bool) (l : List α)
    (h : ∀ c ∈ l, p c = false) : l.dropWhile p = l := by
  induction l with
  | nil => rfl
  | cons a as _ =>
    rw [List.dropWhile_cons, h a (List.mem_cons_self a as)]
    simp

/-- C2 amended: on a physical line made of a newline-free portion
`pre ++ tok` whose comment token `tok` starts at the `#` and runs to the
end of the line, followed by trailing newline characters, the code marks
the comment inline iff some character other than a space (U+0020) precedes
the token — so a tab before the `#` counts as code, not as indentation. -/
theorem c2_inline_iff_nonspace (pre tok tail : String)
    (hpre : '\n' ∉ pre.data) (htok : '\n' ∉ tok.data)
    (hhead : tok.data.head? = some '#')
    (htail : ∀ c ∈ tail.data, c = '\n') :
    (comment_inline tok (pre ++ tok ++ tail) = true ↔ ∃ c ∈ pre.data, c ≠ ' ') := by
  have hne : tok.data ≠ [] := by
    intro h0; rw [h0] at hhead; simp at hhead
  have hAB : ∀ c ∈ pre.data ++ tok.data, (c == '\n') = false := by
    intro c hc
    refine beq_eq_false_iff_ne.2 fun e => ?_
    rcases List.mem_append.1 hc with h | h
    · exact hpre (e ▸ h)
    · exact htok (e ▸ h)
  have hstrip : (stripNewlines (pre ++ tok ++ tail)).data = pre.data ++ tok.data := by
    have hd1 : (pre ++ tok ++ tail).data = (pre.data ++ tok.data) ++ tail.data := by
      rw [String.data_append, String.data_append]
    show (((pre ++ tok ++ tail).data.dropWhile (· == '\n')).reverse.dropWhile
        (· == '\n')).reverse = _
    rw [hd1]
    have hABne : ((pre.data ++ tok.data).isEmpty) = false := by
      rcases h : pre.data ++ tok.data with _ | _
      · exact absurd (List.append_eq_nil.1 h).2 hne
      · rfl
    have h1 : ((pre.data ++ tok.data) ++ tail.data).dropWhile (· == '\n')
        = (pre.data ++ tok.data) ++ tail.data := by
      rw [List.dropWhile_append, dropWhile_eq_self_of_not _ _ hAB, hABne]
      simp
    rw [h1, List.reverse_append]
    have h2 : (tail.data.reverse).dropWhile (· == '\n') = [] := by
      rw [List.dropWhile_eq_nil_iff]
      intro c hc
      rw [List.mem_reverse] at hc
      simp [htail c hc]
    rw [List.dropWhile_append, h2]
    simp only [List.isEmpty_nil, if_true]
    rw [dropWhile_eq_self_of_not _ _ (fun c hc => hAB c (List.mem_reverse.1 hc))]
    exact List.reverse_reverse _
  have hiff : comment_inline tok (pre ++ tok ++ tail) = true ↔
      tok.data ≠ (pre.data ++ tok.data).dropWhile (· == ' ') := by
    rw [comment_inline, decide_eq_true_iff, ne_eq, ne_eq, String.ext_iff]
    show ¬(tok.data = ((stripNewlines (pre ++ tok ++ tail)).data).dropWhile (· == ' ')) ↔ _
    rw [hstrip]
  rw [hiff]
  have htokdrop : tok.data.dropWhile (· == ' ') = tok.data := by
    obtain ⟨h, rest, htd⟩ : ∃ h rest, tok.data = h :: rest := by
      rcases htd : tok.data with _ | ⟨h, rest⟩
      · exact absurd htd hne
      · exact ⟨h, rest, rfl⟩
    rw [htd]
    rw [htd] at hhead
    have hh : h = '#' := by simpa using hhead
    rw [List.dropWhile_cons]
    simp [hh]
  by_cases hsp : pre.data.dropWhile (· == ' ') = []
  · have hall : ∀ c ∈ pre.data, (c == ' ') = true := List.dropWhile_eq_nil_iff.1 hsp
    constructor
    · intro hne2
      exfalso
      apply hne2
      rw [List.dropWhile_append, hsp]
      simp [htokdrop]
    · rintro ⟨c, hc, hcne⟩
      exact absurd (by simpa using hall c hc) hcne
  · constructor
    · intro _
      have hnall : ¬ ∀ c ∈ pre.data, (c == ' ') = true :=
        fun hall => hsp (List.dropWhile_eq_nil_iff.2 hall)
      push_neg at hnall
      obtain ⟨c, hc, hcs⟩ := hnall
      exact ⟨c, hc, by simpa using hcs⟩
    · intro _
      have hie : (pre.data.dropWhile (· == ' ')).isEmpty = false := by
        rcases h : pre.data.dropWhile (· == ' ') with _ | _
        · exact absurd h hsp
        · rfl
      rw [List.dropWhile_append, hie]
      simp only [Bool.false_eq_true, if_false]
      intro heq
      have hlen := congrArg List.length heq
      rw [List.length_append] at hlen
      have h0 : (pre.data.dropWhile (· == ' ')).length = 0 := by omega
      exact hsp (List.length_eq_zero.1 h0)

/-- Witness for C2: the line `x # c` has the non-space character `x`
before the marker and the comment is inline. -/
theorem c2_inline_iff_nonspace_witness :
    ('\n' ∉ ("x " : String).data) ∧ ('\n' ∉ ("# c" : String).data) ∧
    (("# c" : String).data.head? = some '#') ∧
    (∀ c ∈ ("\n" : String).data, c = '\n') ∧
    (comment_inline "# c" ("x " ++ "# c" ++ "\n") = true ↔
      ∃ c ∈ ("x " : String).data, c ≠ ' ') :=
  ⟨by decide, by decide, by decide, by decide,
    c2_inline_iff_nonspace "x " "# c" "\n" (by decide) (by decide) (by decide)
      (by decide)⟩

/-- C2 counterexample: the claim says `inline=True` iff non-whitespace code
precedes the comment marker on its line.  On the physical line `"\t# c\n"`
every character before the marker is whitespace (a tab), yet the code's
`t.string != t.line.strip("\n").lstrip(" ")` computes `inline = true`,
because `lstrip(" ")` removes only spaces. -/
theorem c2_counterexample :
    ("\t# c\n" : String) = "\t" ++ "# c" ++ "\n" ∧
    (∀ ch ∈ ("\t" : String).data, isPySpace ch = true) ∧
    comment_inline "# c" "\t# c\n" = true := by
  refine ⟨by decide, by decide, by decide⟩

theorem fieldsInv_attach_old (t : FlatTree) (st : EnrichState) (j : Nat) (c : Cmt)
    (reg : List String) (k : String)
    (h : k ∈ reg ∨ ∃ p ∈ st.attrComments, (getNode t p.1).kind = k) :
    k ∈ reg ∨ ∃ p ∈ st.attrComments.filter (fun p => decide (p.1 ≠ j)) ++ [(j, c)],
      (getNode t p.1).kind = k := by
  rcases h with hreg | ⟨p, hp, hpk⟩
  · exact Or.inl hreg
  · by_cases hj : p.1 = j
    · refine Or.inr ⟨(j, c), List.mem_append_right _ (by simp), ?_⟩
      rw [hj] at hpk
      exact hpk
    · exact Or.inr ⟨p, List.mem_append_left _
        (List.mem_filter.2 ⟨hp, decide_eq_true hj⟩), hpk⟩

theorem fieldsInv_applyAction (t : FlatTree) (reg : List String) (st : EnrichState)
    (c : Cmt) (act : PlaceAct) (h : classFieldsInv t reg st) :
    classFieldsInv t reg (applyAction t st c act) := by
  cases act with
  | keep => exact h
  | toBlock b stored =>
    intro k hk
    simp only [applyAction, addToBlock] at hk ⊢
    exact h k hk
  | attach j =>
    intro k hk
    simp only [applyAction, attachAttr] at hk ⊢
    rw [addKind] at hk
    by_cases hmem : (getNode t j).kind ∈ st.classFields
    · rw [if_pos hmem] at hk
      exact fieldsInv_attach_old t st j c reg k (h k hk)
    · rw [if_neg hmem] at hk
      rcases List.mem_append.1 hk with hk | hk
      · exact fieldsInv_attach_old t st j c reg k (h k hk)
      · refine Or.inr ⟨(j, c), List.mem_append_right _ (by simp), ?_⟩
        simpa using (List.mem_singleton.1 hk).symm

theorem fieldsInv_foldComments (t : FlatTree) (reg : List String) (i : Nat)
    (blocks : List Blk) (children : List Nat) :
    ∀ (L : List Cmt) (st : EnrichState), classFieldsInv t reg st →
      classFieldsInv t reg (L.foldl (processOneComment t i blocks children) st) := by
  intro L
  induction L with
  | nil => intro st h; exact h
  | cons a as ih =>
    intro st h
    rw [List.foldl_cons]
    exact ih _ (fieldsInv_applyAction t reg st a _ h)

theorem fieldsInv_processNode (t : FlatTree) (reg : List String) (st : EnrichState)
    (i : Nat) (h : classFieldsInv t reg st) : classFieldsInv t reg (processNode t st i) := by
  rw [processNode]
  rcases (getNode t i).span with _ | ⟨l, e⟩
  · exact h
  · exact fieldsInv_foldComments t reg i _ _ _ st h

theorem fieldsInv_walk (t : FlatTree) (reg : List String) :
    ∀ (ids : List Nat) (st : EnrichState), classFieldsInv t reg st →
      classFieldsInv t reg (ids.foldl (processNode t) st) := by
  intro ids
  induction ids with
  | nil => intro st h; exact h
  | cons i is ih =>
    intro st h
    rw [List.foldl_cons]
    exact ih _ (fieldsInv_processNode t reg st i h)

/-- C8 amended: `parse` does mutate state shared across calls — the node
class `_fields` registry — but only by attaching a comment attribute:
every kind registered beyond the registry the call started with belongs to
a node that carries an attribute comment in the returned tree. -/
theorem c8_class_fields_only_from_attr_comments (reg : List String) (t : FlatTree)
    (cs : List Cmt) (k : String) (hk : k ∈ (runEnrich reg t cs).classFields) :
    k ∈ reg ∨ ∃ p ∈ (runEnrich reg t cs).attrComments, (getNode t p.1).kind = k := by
  have hinv : classFieldsInv t reg (runWalk reg t cs) :=
    fieldsInv_walk t reg (walkIds t) (initState reg cs) (fun k hk => Or.inl hk)
  exact hinv k hk

/-- Witness for C8: applying the characterization to the `t5` run, whose
registry gained `Assign`. -/
theorem c8_class_fields_witness :
    ("Assign" ∈ (runEnrich [] t5 [c5]).classFields) ∧
    ("Assign" ∈ ([] : List String) ∨
      ∃ p ∈ (runEnrich [] t5 [c5]).attrComments, (getNode t5 p.1).kind = "Assign") :=
  ⟨by decide, c8_class_fields_only_from_attr_comments [] t5 [c5] "Assign" (by decide)⟩

/-- C8 counterexample: the claim says no mutable state (including node
class `_fields`) is shared across `parse` calls.  Starting from the empty
class-fields registry (a fresh process), parsing
`hello = 'hello' # comment to hello` returns with the registry containing
`"Assign"`: `add_comment_field_to_node_class` has mutated the Assign class
`_fields`, a change visible to every later call. -/
theorem c8_counterexample :
    (parseSt [] (ParseArg.ofSource t5 [c5])).2 = ["Assign"] := by
  decide

theorem getNode_span_mem (t : FlatTree) (i : Nat) (l e : Nat)
    (h : (getNode t i).span = some (l, e)) : getNode t i ∈ t.nodes := by
  unfold getNode at h ⊢
  rcases hq : t.nodes.get? i with _ | v
  · rw [List.getD_eq_get?, hq, Option.getD_none] at h
    rw [show (default : FlatNode).span = none from rfl] at h
    exact absurd h (by simp)
  · rw [List.getD_eq_get?, hq, Option.getD_some]
    exact List.get?_mem hq

theorem pending_processOneComment (t : FlatTree) (i : Nat) (blocks : List Blk)
    (children : List Nat) (st : EnrichState) (c c' : Cmt) (hne : c' ≠ c)
    (hmem : c ∈ st.pending) :
    c ∈ (processOneComment t i blocks children st c').pending := by
  have hkeep : c ∈ removeCmt st.pending c' :=
    List.mem_filter.2 ⟨hmem, decide_eq_true (Ne.symm hne)⟩
  rw [processOneComment]
  cases decideAction t i blocks children c' with
  | keep => exact hmem
  | attach j => simpa [applyAction, attachAttr] using hkeep
  | toBlock b stored => simpa [applyAction, addToBlock] using hkeep

theorem pending_foldComments (t : FlatTree) (i : Nat) (blocks : List Blk)
    (children : List Nat) (c : Cmt) :
    ∀ (L : List Cmt) (st : EnrichState), (∀ x ∈ L, x ≠ c) → c ∈ st.pending →
      c ∈ (L.foldl (processOneComment t i blocks children) st).pending := by
  intro L
  induction L with
  | nil => intro st _ hmem; exact hmem
  | cons a as ih =>
    intro st hL hmem
    rw [List.foldl_cons]
    exact ih _ (fun x hx => hL x (List.mem_cons_of_mem a hx))
      (pending_processOneComment t i blocks children st c a
        (hL a (List.mem_cons_self a as)) hmem)

theorem pending_processNode (t : FlatTree) (st : EnrichState) (i : Nat) (c : Cmt)
    (hfree : spanFreeB t c = true) (hmem : c ∈ st.pending) :
    c ∈ (processNode t st i).pending := by
  rw [processNode]
  rcases hs : (getNode t i).span with _ | ⟨l, e⟩
  · exact hmem
  · have hmemN : getNode t i ∈ t.nodes := getNode_span_mem t i l e hs
    have hcf := List.all_eq_true.1 hfree _ hmemN
    rw [hs] at hcf
    simp only [Bool.not_eq_true', decide_eq_false_iff_not] at hcf
    apply pending_foldComments
    · intro x hx
      have hx1 := (List.mem_filter.1 ((List.mem_filter.1 hx).1)).2
      have hx2 := of_decide_eq_true hx1
      intro hxc
      exact hcf (hxc ▸ hx2)
    · exact hmem

theorem pending_walk (t : FlatTree) (c : Cmt) (hfree : spanFreeB t c = true)
    (ids : List Nat) (st : EnrichState) (hmem : c ∈ st.pending) :
    c ∈ (ids.foldl (processNode t) st).pending := by
  induction ids generalizing st with
  | nil => exact hmem
  | cons i is ih =>
    rw [List.foldl_cons]
    exact ih _ (pending_processNode t st i c hfree hmem)

theorem mem_addCommentToBlock (l : List Entry) (c : Cmt) (x : Entry) (h : x ∈ l) :
    x ∈ addCommentToBlock l c :=
  (mem_sortOrd _ _ _).2 (List.mem_append_left _ h)

theorem cmt_mem_addCommentToBlock (l : List Entry) (c : Cmt) :
    Entry.cmt c ∈ addCommentToBlock l c :=
  (mem_sortOrd _ _ _).2 (List.mem_append_right _ (by simp))

theorem mem_foldl_addComment_preserve (adds : List Cmt) (init : List Entry) (x : Entry)
    (h : x ∈ init) : x ∈ adds.foldl addCommentToBlock init := by
  induction adds generalizing init with
  | nil => exact h
  | cons a as ih => exact ih _ (mem_addCommentToBlock init a x h)

theorem mem_foldl_addComment (adds : List Cmt) (init : List Entry) (c : Cmt)
    (h : c ∈ adds) : Entry.cmt c ∈ adds.foldl addCommentToBlock init := by
  induction adds generalizing init with
  | nil => exact absurd h (by simp)
  | cons a as ih =>
    rw [List.foldl_cons]
    rcases List.mem_cons.1 h with rfl | has
    · exact mem_foldl_addComment_preserve as _ _ (cmt_mem_addCommentToBlock init c)
    · exact ih _ has

/-- C9: a comment whose line is contained in no node span — hence in no
recognized container interval — survives the whole walk in the pending set
(every removal site requires the processed node's span to contain the
comment's line) and the fallback loop of `append_comment_nodes` then adds
it to the root `body` container; the embedded placement engine is total,
so no failure is observable. -/
theorem c9_uncontained_comment_to_root (t : FlatTree) (cs : List Cmt) (c : Cmt)
    (hc : c ∈ cs) (hfree : spanFreeB t c = true) :
    Entry.cmt c ∈ finalContainer t (parse (.ofSource t cs)).st (0, "body") := by
  have hw : c ∈ (runWalk [] t cs).pending :=
    pending_walk t c hfree (walkIds t) (initState [] cs) hc
  have hadds : c ∈ containerAdds (runEnrich [] t cs) (0, "body") := by
    unfold runEnrich containerAdds
    simp only
    rw [List.filter_append, List.map_append]
    apply List.mem_append_right
    have h1 : (((0 : Nat), ("body" : String)), c) ∈
        (runWalk [] t cs).pending.map (fun c => (((0 : Nat), ("body" : String)), c)) :=
      List.mem_map.2 ⟨c, hw, rfl⟩
    have h2 : (((0 : Nat), ("body" : String)), c) ∈
        ((runWalk [] t cs).pending.map
          (fun c => (((0 : Nat), ("body" : String)), c))).filter
            (fun p => decide (p.1 = ((0 : Nat), ("body" : String)))) :=
      List.mem_filter.2 ⟨h1, by simp⟩
    exact List.mem_map.2 ⟨_, h2, rfl⟩
  exact mem_foldl_addComment _ _ _ hadds

/-- Witness for C9: the comment `# x` on line 3 of the one-statement
source lies in no node span and lands in the root body. -/
theorem c9_uncontained_comment_to_root_witness :
    (cFree ∈ [cFree]) ∧ (spanFreeB t5 cFree = true) ∧
    Entry.cmt cFree ∈ finalContainer t5 (parse (.ofSource t5 [cFree])).st (0, "body") :=
  ⟨by decide, by decide,
    c9_uncontained_comment_to_root t5 [cFree] cFree (by decide) (by decide)⟩

/-- C7: `parse` on a tree input returns it unchanged — `ast.parse` passes
an AST argument through and the `isinstance(source, (str, bytes))` check
skips the enrichment — so re-parsing a parsed tree adds and duplicates
nothing: `parse (parse S)` is the very tree `parse S` returned. -/
theorem c7_parse_idempotent :
    (∀ e : Enriched, parse (.ofTree e) = e) ∧
    (∀ (t : FlatTree) (cs : List Cmt),
      parse (.ofTree (parse (.ofSource t cs))) = parse (.ofSource t cs)) := by
  exact ⟨fun _ => rfl, fun _ _ => rfl⟩

end AstComments
